import Mathlib

/-!
Verification development for the microservices-crawler scanning engine.

The embedding covers `src/utils/hash.ts` (streaming SHA-256 content
identifier) and `src/services/scanner/fileScanner.ts` (the recursive
directory walker with type and size filtering and per-file error
isolation).

File contents are modelled as lists of bytes (`List Nat`, each element a
byte value), filesystem paths as lists of path components
(`List String`), and the filesystem itself as a finite tree whose
directory listings may fail (modelling `readdir` errors) and whose file
reads may fail (modelling `stat`/read errors).
-/

namespace Crawler

/-! ## SHA-256 (model of the digest computed by `createHash('sha256')`)

The Node `crypto` module is external to the repository; the definitions
below implement FIPS 180-4 SHA-256 as an incremental absorb/finalize
machine, matching the `hash.update(chunk)` / `hash.digest('hex')`
interface used by `calculateFileHash`.  The implementation is validated
by the standard test vectors further down. -/

namespace Sha256

/-- Modulus for 32-bit words. -/
def w32 : Nat := 4294967296

/-- Right rotation of a 32-bit word by `n` bits. -/
def rotr (n x : Nat) : Nat := x / 2 ^ n + x % 2 ^ n * 2 ^ (32 - n)

/-- Logical right shift of a 32-bit word by `n` bits. -/
def shr (n x : Nat) : Nat := x / 2 ^ n

/-- SHA-256 choice function. -/
def ch (x y z : Nat) : Nat := Nat.xor (Nat.land x y) (Nat.land (Nat.xor x 4294967295) z)

/-- SHA-256 majority function. -/
def maj (x y z : Nat) : Nat := Nat.xor (Nat.xor (Nat.land x y) (Nat.land x z)) (Nat.land y z)

/-- Big sigma-0 function. -/
def bsig0 (x : Nat) : Nat := Nat.xor (Nat.xor (rotr 2 x) (rotr 13 x)) (rotr 22 x)

/-- Big sigma-1 function. -/
def bsig1 (x : Nat) : Nat := Nat.xor (Nat.xor (rotr 6 x) (rotr 11 x)) (rotr 25 x)

/-- Small sigma-0 function. -/
def ssig0 (x : Nat) : Nat := Nat.xor (Nat.xor (rotr 7 x) (rotr 18 x)) (shr 3 x)

/-- Small sigma-1 function. -/
def ssig1 (x : Nat) : Nat := Nat.xor (Nat.xor (rotr 17 x) (rotr 19 x)) (shr 10 x)

/-- The 64 SHA-256 round constants. -/
def roundK : List Nat :=
  [1116352408, 1899447441, 3049323471, 3921009573, 961987163, 1508970993,
   2453635748, 2870763221, 3624381080, 310598401, 607225278, 1426881987,
   1925078388, 2162078206, 2614888103, 3248222580, 3835390401, 4022224774,
   264347078, 604807628, 770255983, 1249150122, 1555081692, 1996064986,
   2554220882, 2821834349, 2952996808, 3210313671, 3336571891, 3584528711,
   113926993, 338241895, 666307205, 773529912, 1294757372, 1396182291,
   1695183700, 1986661051, 2177026350, 2456956037, 2730485921, 2820302411,
   3259730800, 3345764771, 3516065817, 3600352804, 4094571909, 275423344,
   430227734, 506948616, 659060556, 883997877, 958139571, 1322822218,
   1537002063, 1747873779, 1955562222, 2024104815, 2227730452, 2361852424,
   2428436474, 2756734187, 3204031479, 3329325298]

/-- Initial hash value. -/
def initH : List Nat :=
  [1779033703, 3144134277, 1013904242, 2773480762,
   1359893119, 2600822924, 528734635, 1541459225]

/-- Pack a byte list into big-endian 32-bit words. -/
def toWords : List Nat → List Nat
  | b0 :: b1 :: b2 :: b3 :: rest => (((b0 * 256 + b1) * 256 + b2) * 256 + b3) :: toWords rest
  | _ => []

/-- One step of the message-schedule extension. -/
def scheduleStep (ws : List Nat) : List Nat :=
  let i := ws.length
  ws ++ [(ssig1 (ws.getD (i - 2) 0) + ws.getD (i - 7) 0 + ssig0 (ws.getD (i - 15) 0) +
          ws.getD (i - 16) 0) % w32]

/-- Iterate the message-schedule extension `n` times. -/
def scheduleN : Nat → List Nat → List Nat
  | 0, ws => ws
  | n + 1, ws => scheduleN n (scheduleStep ws)

/-- The full 64-word message schedule of one 64-byte block. -/
def schedule (block : List Nat) : List Nat := scheduleN 48 (toWords block)

/-- One SHA-256 round on the working variables. -/
def roundStep (s : List Nat) (kw : Nat × Nat) : List Nat :=
  match s with
  | [a, b, c, d, e, f, g, h] =>
      let t1 := (h + bsig1 e + ch e f g + kw.1 + kw.2) % w32
      let t2 := (bsig0 a + maj a b c) % w32
      [(t1 + t2) % w32, a, b, c, (d + t1) % w32, e, f, g]
  | other => other

/-- SHA-256 compression function: one 64-byte block absorbed into the state. -/
def compress (h : List Nat) (block : List Nat) : List Nat :=
  let s := (roundK.zip (schedule block)).foldl roundStep h
  (h.zip s).map (fun p => (p.1 + p.2) % w32)

/-- Incremental hashing state: hash words, pending buffer of fewer than 64
bytes, and the count of bytes absorbed so far. -/
structure HashState where
  h : List Nat
  buffer : List Nat
  len : Nat
deriving DecidableEq

/-- The initial incremental state. -/
def initState : HashState := ⟨initH, [], 0⟩

/-- Absorb one byte: append it to the pending buffer and compress when a
full 64-byte block has accumulated. -/
def absorbByte (s : HashState) (b : Nat) : HashState :=
  let buf := s.buffer ++ [b]
  if buf.length = 64 then ⟨compress s.h buf, [], s.len + 1⟩
  else ⟨s.h, buf, s.len + 1⟩

/-- Model of `hash.update(data)`: absorb the bytes of `data` in order. -/
def update (s : HashState) (data : List Nat) : HashState := data.foldl absorbByte s

/-- Big-endian encoding of `v` in `n` bytes. -/
def beBytes : Nat → Nat → List Nat
  | 0, _ => []
  | n + 1, v => beBytes n (v / 256) ++ [v % 256]

/-- SHA-256 padding for a message of `len` bytes: a 0x80 byte, zeros up to
56 mod 64, then the bit length in 8 big-endian bytes. -/
def padding (len : Nat) : List Nat :=
  128 :: List.replicate ((119 - len % 64) % 64) 0 ++ beBytes 8 (len * 8)

/-- Lower-case hexadecimal digit for a value below 16. -/
def hexDigit (n : Nat) : Char := if n < 10 then Char.ofNat (48 + n) else Char.ofNat (87 + n)

/-- Lower-case hexadecimal rendering of one 32-bit word. -/
def wordHex (w : Nat) : List Char :=
  [hexDigit (w / 2 ^ 28 % 16), hexDigit (w / 2 ^ 24 % 16), hexDigit (w / 2 ^ 20 % 16),
   hexDigit (w / 2 ^ 16 % 16), hexDigit (w / 2 ^ 12 % 16), hexDigit (w / 2 ^ 8 % 16),
   hexDigit (w / 2 ^ 4 % 16), hexDigit (w % 16)]

/-- Model of `hash.digest('hex')`: absorb the padding and render the hash
words as lower-case hexadecimal. -/
def digestHex (s : HashState) : String :=
  String.mk ((update s (padding s.len)).h.map wordHex).flatten

end Sha256

/-- The SHA-256 digest of a byte sequence, as a lower-case hexadecimal
string: the reference (single-shot) form of the digest. -/
def sha256hex (msg : List Nat) : String :=
  Sha256.digestHex (Sha256.update Sha256.initState msg)

set_option maxRecDepth 400000

/-- FIPS 180-4 test vector: the empty message. -/
theorem sha256hex_empty :
    sha256hex [] = "e3b0c44298fc1c149afbf4c8996fb92427ae41e4649b934ca495991b7852b855" := by
  decide

/-- FIPS 180-4 test vector: the three-byte message "abc". -/
theorem sha256hex_abc :
    sha256hex [97, 98, 99] =
      "ba7816bf8f01cfea414140de5dae2223b00361a396177a9cb410ff61f20015ad" := by
  decide

/-- Fuel-driven worker for `chunksOf`: one chunk is cut per step, so a
fuel equal to the byte count always suffices. -/
def chunksOfAux (k : Nat) : Nat → List Nat → List (List Nat)
  | 0, _ => []
  | _, [] => []
  | fuel + 1, a :: t => (a :: t).take k :: chunksOfAux k fuel (t.drop (k - 1))

/-- Split a byte list into successive chunks of `k` bytes each, the last
chunk possibly shorter.  Models the read stream created with
`highWaterMark: 64 * 1024`, which delivers the file content in order in
chunks of at most 64 KiB. -/
def chunksOf (k : Nat) (l : List Nat) : List (List Nat) := chunksOfAux k l.length l

/-- Model of `calculateFileHash` from `src/utils/hash.ts`: stream the file
content chunk by chunk through the incremental SHA-256 state (one
`hash.update` per `data` event) and render the final digest in lower-case
hexadecimal on the `end` event. -/
def calculateFileHash (content : List Nat) : String :=
  Sha256.digestHex ((chunksOf 65536 content).foldl Sha256.update Sha256.initState)

/-- Absorbing two byte sequences in succession is the same as absorbing
their concatenation. -/
theorem Sha256.update_append (s : Sha256.HashState) (a b : List Nat) :
    Sha256.update s (a ++ b) = Sha256.update (Sha256.update s a) b := by
  simp [Sha256.update, List.foldl_append]

/-- Folding `update` over a list of chunks absorbs exactly the flattened
byte sequence. -/
theorem Sha256.foldl_update (cs : List (List Nat)) (s : Sha256.HashState) :
    cs.foldl Sha256.update s = Sha256.update s cs.flatten := by
  induction cs generalizing s with
  | nil => simp [Sha256.update]
  | cons c cs ih => simp [List.foldl_cons, ih, Sha256.update_append]

/-- Chunking loses no bytes and reorders nothing: flattening the chunks
returns the original byte sequence. -/
theorem chunksOfAux_flatten (k : Nat) (hk : 0 < k) (fuel : Nat) (l : List Nat)
    (hf : l.length ≤ fuel) : (chunksOfAux k fuel l).flatten = l := by
  induction fuel generalizing l with
  | zero =>
      have : l = [] := List.length_eq_zero.mp (Nat.le_zero.mp hf)
      subst this
      simp [chunksOfAux]
  | succ n ih =>
      match l with
      | [] => simp [chunksOfAux]
      | a :: t =>
          have hdrop : t.drop (k - 1) = (a :: t).drop k := by
            cases k with
            | zero => omega
            | succ j => simp
          have hlen : (t.drop (k - 1)).length ≤ n := by
            simp only [List.length_drop]
            simp only [List.length_cons] at hf
            omega
          rw [chunksOfAux, List.flatten_cons, ih _ hlen, hdrop, List.take_append_drop]

/-- Flattening the chunks of a byte sequence returns the sequence. -/
theorem chunksOf_flatten (k : Nat) (hk : 0 < k) (l : List Nat) :
    (chunksOf k l).flatten = l :=
  chunksOfAux_flatten k hk l.length l (le_refl _)

/-- Every chunk produced by the worker has at most `k` bytes. -/
theorem chunksOfAux_length_le (k fuel : Nat) (l : List Nat) :
    ∀ c ∈ chunksOfAux k fuel l, c.length ≤ k := by
  induction fuel generalizing l with
  | zero => simp [chunksOfAux]
  | succ n ih =>
      match l with
      | [] => simp [chunksOfAux]
      | a :: t =>
          intro c hc
          rw [chunksOfAux] at hc
          rcases List.mem_cons.mp hc with h | h
          · subst h; exact List.length_take_le _ _
          · exact ih _ c h

/-- Every chunk produced by `chunksOf k` has at most `k` bytes. -/
theorem chunksOf_length_le (k : Nat) (l : List Nat) :
    ∀ c ∈ chunksOf k l, c.length ≤ k :=
  chunksOfAux_length_le k l.length l

/-- The chunked, streaming digest of `calculateFileHash` equals the
single-shot SHA-256 digest of the whole content. -/
theorem calculateFileHash_eq_sha256hex (content : List Nat) :
    calculateFileHash content = sha256hex content := by
  unfold calculateFileHash sha256hex
  rw [Sha256.foldl_update, chunksOf_flatten 65536 (by omega)]

/-- Absorbing bytes keeps the pending buffer strictly below one block:
the incremental state retains fewer than 64 buffered bytes no matter how
much data has been streamed through it. -/
theorem Sha256.update_buffer_lt (d : List Nat) (s : Sha256.HashState)
    (hs : s.buffer.length < 64) : (Sha256.update s d).buffer.length < 64 := by
  induction d generalizing s with
  | nil => simpa [Sha256.update]
  | cons b d ih =>
      have hstep : (Sha256.absorbByte s b).buffer.length < 64 := by
        unfold Sha256.absorbByte
        by_cases h : (s.buffer ++ [b]).length = 64
        · simp [h]
        · simp only [h, if_false]
          simp only [List.length_append, List.length_cons, List.length_nil] at h ⊢
          omega
      simpa [Sha256.update, List.foldl_cons] using ih (Sha256.absorbByte s b) hstep

/-! ## Filesystem model

A directory listing either succeeds with a finite list of named entries
(`readdir` with `withFileTypes`) or fails with an error; reading a file's
stat/content either succeeds with its data or fails.  Paths are lists of
components; a missing or permission-denied root is a directory whose
listing fails. -/

/-- Decidable equality for `Except`, used to evaluate concrete scan
outcomes. -/
instance {ε α : Type} [DecidableEq ε] [DecidableEq α] :
    DecidableEq (Except ε α) := fun a b =>
  match a, b with
  | .error e, .error f =>
      if h : e = f then .isTrue (congrArg Except.error h)
      else .isFalse (fun hh => h (Except.error.inj hh))
  | .ok x, .ok y =>
      if h : x = y then .isTrue (congrArg Except.ok h)
      else .isFalse (fun hh => h (Except.ok.inj hh))
  | .error _, .ok _ => .isFalse (fun hh => Except.noConfusion hh)
  | .ok _, .error _ => .isFalse (fun hh => Except.noConfusion hh)

/-- Filesystem error codes relevant to the scanner. -/
inductive Err where
  | enoent
  | eacces
  | enotdir
  | eio
deriving DecidableEq

/-- The observable data of a readable file: its byte content and its
creation and modification timestamps (as returned by `fs.stat`). -/
structure FileData where
  content : List Nat
  created : Nat
  modified : Nat
deriving DecidableEq

mutual
/-- A filesystem tree node: a file whose stat/read either succeeds or
fails, a directory whose listing succeeds, or a directory whose listing
fails (missing, permission denied, ...). -/
inductive FsEntry where
  | file : Except Err FileData → FsEntry
  | dirOk : FsListing → FsEntry
  | dirErr : Err → FsEntry
/-- A directory listing: a finite sequence of named entries in the order
the filesystem reports them. -/
inductive FsListing where
  | nil : FsListing
  | cons : String → FsEntry → FsListing → FsListing
end

/-- The named entries of a listing as an ordinary list of pairs. -/
def FsListing.toList : FsListing → List (String × FsEntry)
  | .nil => []
  | .cons name e rest => (name, e) :: rest.toList

/-! ## Scanner data model (`src/models/types.ts`, `fileScanner.ts`) -/

/-- Model of the `ImageMetadata` record: `path` and `absolutePath` as
component lists, `size` in bytes, `hash` the hex digest string, and the
two stat timestamps.  The optional `dimensions` field is never produced
by the scanner and is omitted. -/
structure ImageMetadata where
  path : List String
  absolutePath : List String
  size : Nat
  hash : String
  created : Nat
  modified : Nat
deriving DecidableEq

/-- Model of `ScanOptions` after defaults have been merged. -/
structure ScanOptions where
  recursive : Bool
  includeZips : Bool
  fileTypes : List String
  maxSize : Option Nat
deriving DecidableEq

/-- Model of `Partial<ScanOptions>`: each field either supplied or
omitted. -/
structure PartialScanOptions where
  recursive : Option Bool := none
  includeZips : Option Bool := none
  fileTypes : Option (List String) := none
  maxSize : Option Nat := none
deriving DecidableEq

namespace FileScanner

/-- The scanner's built-in `defaultOptions` value: recursive, zip
scanning enabled, the default raster-image extension list, and no
`maxSize` key. -/
def defaultOptions : ScanOptions :=
  { recursive := true
    includeZips := true
    fileTypes := [".jpg", ".jpeg", ".png", ".gif", ".webp", ".bmp", ".tiff"]
    maxSize := none }

/-- Model of `{ ...this.defaultOptions, ...options }`: a field supplied in
`options` overrides the default, an omitted field keeps the default
(`defaultOptions` has no `maxSize` key, so `maxSize` comes from `options`
alone). -/
def mergeOptions (options : PartialScanOptions) : ScanOptions :=
  { recursive := options.recursive.getD defaultOptions.recursive
    includeZips := options.includeZips.getD defaultOptions.includeZips
    fileTypes := options.fileTypes.getD defaultOptions.fileTypes
    maxSize := options.maxSize }

/-- Index of the last dot in a character list, if any. -/
def extIdx : List Char → Option Nat
  | [] => none
  | c :: t =>
      match extIdx t with
      | some i => some (i + 1)
      | none => if c = '.' then some 0 else none

/-- Model of `path.extname` on a bare entry name (readdir names contain
no separators): the substring from the last dot, or empty when there is
no dot or the only dot is the leading character. -/
def extname (fileName : String) : String :=
  match extIdx fileName.toList with
  | none => ""
  | some 0 => ""
  | some i => String.mk (fileName.toList.drop i)

/-- Model of `toLowerCase` (ASCII range, which covers file
extensions): lower-case every character. -/
def toLowerStr (s : String) : String := String.mk (s.toList.map Char.toLower)

/-- Model of `isValidImageFile`: lower-case the extension and test list
membership against `options.fileTypes`. -/
def isValidImageFile (fileName : String) (options : ScanOptions) : Bool :=
  options.fileTypes.contains (toLowerStr (extname fileName))

/-- Model of `isValidSize`.  The source guard is `if (!maxSize) return
true`, which treats both an absent `maxSize` and the number `0` as "no
limit" (JavaScript falsiness), so the bound is only applied when it is a
positive number. -/
def isValidSize (metadata : ImageMetadata) (maxSize : Option Nat) : Bool :=
  match maxSize with
  | none => true
  | some m => if m = 0 then true else metadata.size ≤ m

/-- Length of the longest common prefix of two component paths. -/
def commonPrefixLen : List String → List String → Nat
  | a :: as, b :: bs => if a = b then commonPrefixLen as bs + 1 else 0
  | _, _ => 0

/-- Model of `path.relative src dst` on component paths: strip the common
prefix, then climb out of what remains of `src` with `..` segments and
descend into the rest of `dst`. -/
def pathRelative (src dst : List String) : List String :=
  let k := commonPrefixLen src dst
  List.replicate (src.length - k) ".." ++ dst.drop k

/-- Model of `getImageMetadata`: stat and hash the file at
`rootPath ++ dirPath ++ [name]`, propagating a stat/read failure, and
otherwise assemble the metadata record (`path.relative` from the scan
root, the resolved absolute path, size, streamed hash, timestamps). -/
def getImageMetadata (rootPath dirPath : List String) (name : String)
    (d : Except Err FileData) : Except Err ImageMetadata :=
  match d with
  | .error e => .error e
  | .ok data =>
      .ok { path := pathRelative rootPath (rootPath ++ dirPath ++ [name])
            absolutePath := rootPath ++ dirPath ++ [name]
            size := data.content.length
            hash := calculateFileHash data.content
            created := data.created
            modified := data.modified }

/-- The observable trace of one scan: the accumulated `results` array,
the per-file diagnostics written to the error channel by the `catch`
block (path and cause), and the files on which a stat/read was actually
attempted. -/
structure ScanState where
  results : List ImageMetadata
  diagnostics : List (List String × Err)
  reads : List (List String)
deriving DecidableEq

/-- The empty trace. -/
def ScanState.empty : ScanState := ⟨[], [], []⟩

/-- Model of the loop body of `scanDirectory` over a listing.  A
subdirectory is recursed into when `recursive` is set (a failing
subdirectory listing propagates as an error); a file matching the type
predicate is statted/read, with a read failure isolated into a
diagnostic, and its record kept when the size predicate accepts it. -/
def scanEntries (rootPath : List String) (opts : ScanOptions) :
    FsListing → List String → ScanState → Except Err ScanState
  | .nil, _, st => .ok st
  | .cons name (FsEntry.dirOk sub) rest, dirPath, st =>
      if opts.recursive then
        match scanEntries rootPath opts sub (dirPath ++ [name]) st with
        | .error e => .error e
        | .ok st2 => scanEntries rootPath opts rest dirPath st2
      else scanEntries rootPath opts rest dirPath st
  | .cons _ (FsEntry.dirErr e) rest, dirPath, st =>
      if opts.recursive then .error e
      else scanEntries rootPath opts rest dirPath st
  | .cons name (FsEntry.file d) rest, dirPath, st =>
      if isValidImageFile name opts then
        match getImageMetadata rootPath dirPath name d with
        | .error e =>
            scanEntries rootPath opts rest dirPath
              { st with diagnostics := st.diagnostics ++ [(dirPath ++ [name], e)]
                        reads := st.reads ++ [dirPath ++ [name]] }
        | .ok m =>
            if isValidSize m opts.maxSize then
              scanEntries rootPath opts rest dirPath
                { st with results := st.results ++ [m]
                          reads := st.reads ++ [dirPath ++ [name]] }
            else
              scanEntries rootPath opts rest dirPath
                { st with reads := st.reads ++ [dirPath ++ [name]] }
      else scanEntries rootPath opts rest dirPath st

/-- Model of `scan`: merge the defaults into the supplied options, list
the root (failing with the listing error when the root is missing,
unreadable or not a directory), walk it, and return the accumulated
trace.  The `catch` block in `scan` logs and rethrows, so the error is
returned unchanged. -/
def scan (rootPath : List String) (root : FsEntry) (options : PartialScanOptions) :
    Except Err ScanState :=
  let merged := mergeOptions options
  match root with
  | .file _ => .error Err.enotdir
  | .dirErr e => .error e
  | .dirOk entries => scanEntries rootPath merged entries [] ScanState.empty

/-- Concatenation of two scan traces. -/
def ScanState.append (a b : ScanState) : ScanState :=
  ⟨a.results ++ b.results, a.diagnostics ++ b.diagnostics, a.reads ++ b.reads⟩

theorem ScanState.append_empty (st : ScanState) : st.append ScanState.empty = st := by
  cases st
  simp [ScanState.append, ScanState.empty]

theorem ScanState.empty_append (st : ScanState) : ScanState.empty.append st = st := by
  cases st
  simp [ScanState.append, ScanState.empty]

theorem ScanState.append_assoc (a b c : ScanState) :
    (a.append b).append c = a.append (b.append c) := by
  cases a
  cases b
  cases c
  simp [ScanState.append]

/-- The entry names of a listing, in order. -/
def listingNames : FsListing → List String
  | .nil => []
  | .cons name _ rest => name :: listingNames rest

/-- All files reachable by the walk (every file when `rec` is set, the
depth-0 files otherwise), in traversal order.  Each element carries the
directory path relative to the listing, the file name and the
stat/read outcome. -/
def entryFiles (rec : Bool) : FsListing → List (List String × String × Except Err FileData)
  | .nil => []
  | .cons name (FsEntry.dirOk sub) rest =>
      (if rec then (entryFiles rec sub).map (fun t => (name :: t.1, t.2)) else []) ++
        entryFiles rec rest
  | .cons _ (FsEntry.dirErr _) rest => entryFiles rec rest
  | .cons name (FsEntry.file d) rest => ([], name, d) :: entryFiles rec rest

/-- The reachable files whose stat/read succeeds. -/
def entryFilesOk (rec : Bool) (l : FsListing) : List (List String × String × FileData) :=
  (entryFiles rec l).filterMap fun t =>
    match t.2.2 with
    | .ok data => some (t.1, t.2.1, data)
    | .error _ => none

/-- The root-relative path of a reachable file: its directory components
followed by its name. -/
def fileKey (t : List String × String × Except Err FileData) : List String := t.1 ++ [t.2.1]

/-- Whether every directory listing the walk will consult succeeds: with
`rec` set every listing in the tree must succeed, otherwise only the
top-level one (subdirectories are skipped unvisited). -/
def allListingsOkB (rec : Bool) : FsListing → Bool
  | .nil => true
  | .cons _ (FsEntry.dirOk sub) rest => (!rec || allListingsOkB rec sub) && allListingsOkB rec rest
  | .cons _ (FsEntry.dirErr _) rest => !rec && allListingsOkB rec rest
  | .cons _ (FsEntry.file _) rest => allListingsOkB rec rest

/-- Whether every listing in the tree has pairwise-distinct entry names,
as real directories do. -/
def wellFormedB : FsListing → Bool
  | .nil => true
  | .cons name (FsEntry.dirOk sub) rest =>
      !((listingNames rest).contains name) && wellFormedB sub && wellFormedB rest
  | .cons name (FsEntry.dirErr _) rest =>
      !((listingNames rest).contains name) && wellFormedB rest
  | .cons name (FsEntry.file _) rest =>
      !((listingNames rest).contains name) && wellFormedB rest

/-- Whether no entry anywhere in the tree is named `..`, as real
`readdir` listings guarantee. -/
def wellNamedB : FsListing → Bool
  | .nil => true
  | .cons name (FsEntry.dirOk sub) rest => name != ".." && wellNamedB sub && wellNamedB rest
  | .cons name (FsEntry.dirErr _) rest => name != ".." && wellNamedB rest
  | .cons name (FsEntry.file _) rest => name != ".." && wellNamedB rest

/-- The record the scan keeps for one reachable file, if any: `none` when
the type predicate rejects it, the stat/read fails, or the size predicate
rejects it. -/
def recordOf (rootPath : List String) (opts : ScanOptions) (dirPath : List String)
    (t : List String × String × Except Err FileData) : Option ImageMetadata :=
  if isValidImageFile t.2.1 opts then
    match getImageMetadata rootPath (dirPath ++ t.1) t.2.1 t.2.2 with
    | .error _ => none
    | .ok m => if isValidSize m opts.maxSize then some m else none
  else none

/-- The diagnostic the scan reports for one reachable file, if any: only
a file that passes the type predicate and whose stat/read fails produces
one. -/
def diagOf (opts : ScanOptions) (dirPath : List String)
    (t : List String × String × Except Err FileData) : Option (List String × Err) :=
  if isValidImageFile t.2.1 opts then
    match t.2.2 with
    | .error e => some (dirPath ++ t.1 ++ [t.2.1], e)
    | .ok _ => none
  else none

/-- The stat/read attempt the scan makes for one reachable file, if any:
only files passing the type predicate are touched. -/
def readOf (opts : ScanOptions) (dirPath : List String)
    (t : List String × String × Except Err FileData) : Option (List String) :=
  if isValidImageFile t.2.1 opts then some (dirPath ++ t.1 ++ [t.2.1]) else none

/-- The trace contribution of processing one file entry. -/
def fileContribution (rootPath : List String) (opts : ScanOptions) (dirPath : List String)
    (name : String) (d : Except Err FileData) : ScanState :=
  if isValidImageFile name opts then
    match getImageMetadata rootPath dirPath name d with
    | .error e => ⟨[], [(dirPath ++ [name], e)], [dirPath ++ [name]]⟩
    | .ok m =>
        if isValidSize m opts.maxSize then ⟨[m], [], [dirPath ++ [name]]⟩
        else ⟨[], [], [dirPath ++ [name]]⟩
  else ScanState.empty

/-- The trace a walk of `l` produces when every listing it consults
succeeds. -/
def pureScan (rootPath : List String) (opts : ScanOptions) :
    FsListing → List String → ScanState
  | .nil, _ => ScanState.empty
  | .cons name (FsEntry.dirOk sub) rest, dirPath =>
      if opts.recursive then
        (pureScan rootPath opts sub (dirPath ++ [name])).append
          (pureScan rootPath opts rest dirPath)
      else pureScan rootPath opts rest dirPath
  | .cons _ (FsEntry.dirErr _) rest, dirPath => pureScan rootPath opts rest dirPath
  | .cons name (FsEntry.file d) rest, dirPath =>
      (fileContribution rootPath opts dirPath name d).append
        (pureScan rootPath opts rest dirPath)

theorem ScanState.with_diag_read (st : ScanState) (x : List String × Err) (y : List String) :
    { st with diagnostics := st.diagnostics ++ [x], reads := st.reads ++ [y] } =
      st.append ⟨[], [x], [y]⟩ := by
  cases st
  simp [ScanState.append]

theorem ScanState.with_res_read (st : ScanState) (m : ImageMetadata) (y : List String) :
    { st with results := st.results ++ [m], reads := st.reads ++ [y] } =
      st.append ⟨[m], [], [y]⟩ := by
  cases st
  simp [ScanState.append]

theorem ScanState.with_read (st : ScanState) (y : List String) :
    { st with reads := st.reads ++ [y] } = st.append ⟨[], [], [y]⟩ := by
  cases st
  simp [ScanState.append]

/-- With `recursive` unset the walk consults only the root listing, which
is already in hand, so every listing it consults succeeds. -/
theorem allListingsOk_shallow : ∀ l : FsListing, allListingsOkB false l = true := by
  intro l
  induction l using allListingsOkB.induct false <;> simp [allListingsOkB, *]

/-- Processing one file entry extends the running trace by that file's
contribution and moves on to the remaining entries. -/
theorem scanEntries_file_step (rootPath : List String) (opts : ScanOptions)
    (name : String) (d : Except Err FileData) (rest : FsListing) (dirPath : List String)
    (st : ScanState) :
    scanEntries rootPath opts (.cons name (FsEntry.file d) rest) dirPath st =
      scanEntries rootPath opts rest dirPath
        (st.append (fileContribution rootPath opts dirPath name d)) := by
  rw [scanEntries, fileContribution]
  by_cases hv : isValidImageFile name opts = true
  · simp only [hv, if_true]
    cases d with
    | error e0 =>
        simp only [getImageMetadata]
        rw [ScanState.with_diag_read]
    | ok data =>
        simp only [getImageMetadata]
        split_ifs with hs
        · rw [ScanState.with_res_read]
        · rw [ScanState.with_read]
  · simp only [Bool.not_eq_true] at hv
    simp only [hv, Bool.false_eq_true, if_false, ScanState.append_empty]

/-- Characterization of a successful walk: when every listing the walk
consults succeeds, `scanDirectory`'s loop returns the incoming trace
extended by the pure trace of the subtree. -/
theorem scanEntries_ok (rootPath : List String) (opts : ScanOptions) :
    ∀ (l : FsListing) (dirPath : List String) (st : ScanState),
      allListingsOkB opts.recursive l = true →
      scanEntries rootPath opts l dirPath st =
        .ok (st.append (pureScan rootPath opts l dirPath)) := by
  intro l dirPath
  induction l, dirPath using pureScan.induct rootPath opts with
  | case1 dirPath =>
      intro st _
      simp [scanEntries, pureScan, ScanState.append_empty]
  | case2 name sub rest dirPath hrec ih1 ih2 =>
      intro st hok
      rw [hrec] at ih1 ih2
      simp only [allListingsOkB, hrec, Bool.not_true, Bool.false_or, Bool.and_eq_true] at hok
      rw [scanEntries, pureScan]
      simp only [hrec, if_true]
      rw [ih1 st hok.1]
      dsimp only
      rw [ih2 _ hok.2, ScanState.append_assoc]
  | case3 name sub rest dirPath hrec ih =>
      intro st hok
      rw [Bool.not_eq_true] at hrec
      rw [hrec] at ih
      simp only [allListingsOkB, hrec, Bool.not_false, Bool.true_or, Bool.true_and] at hok
      rw [scanEntries, pureScan]
      simp only [hrec, Bool.false_eq_true, if_false]
      exact ih st hok
  | case4 nm e rest dirPath ih =>
      intro st hok
      rw [scanEntries, pureScan]
      cases hrec : opts.recursive with
      | true =>
          rw [hrec] at ih hok
          simp [allListingsOkB] at hok
      | false =>
          rw [hrec] at ih hok
          simp only [allListingsOkB, Bool.not_false, Bool.true_and] at hok
          simp only [Bool.false_eq_true, if_false]
          exact ih st hok
  | case5 name d rest dirPath ih =>
      intro st hok
      simp only [allListingsOkB] at hok
      rw [scanEntries_file_step, pureScan]
      rw [ih _ hok, ScanState.append_assoc]

/-- Failure characterization: when some listing the walk will consult
fails, the walk raises an error. -/
theorem scanEntries_error (rootPath : List String) (opts : ScanOptions) :
    ∀ (l : FsListing) (dirPath : List String) (st : ScanState),
      allListingsOkB opts.recursive l = false →
      ∃ e, scanEntries rootPath opts l dirPath st = .error e := by
  intro l dirPath
  induction l, dirPath using pureScan.induct rootPath opts with
  | case1 dirPath =>
      intro st h
      simp [allListingsOkB] at h
  | case2 name sub rest dirPath hrec ih1 ih2 =>
      intro st h
      rw [hrec] at ih1 ih2
      simp only [allListingsOkB, hrec, Bool.not_true, Bool.false_or] at h
      rw [scanEntries]
      simp only [hrec, if_true]
      cases hsub : allListingsOkB true sub with
      | false =>
          obtain ⟨e, he⟩ := ih1 st hsub
          exact ⟨e, by rw [he]⟩
      | true =>
          have hsub2 : allListingsOkB opts.recursive sub = true := by rw [hrec]; exact hsub
          rw [scanEntries_ok rootPath opts sub _ st hsub2]
          rw [hsub, Bool.true_and] at h
          dsimp only
          exact ih2 _ h
  | case3 name sub rest dirPath hrec ih =>
      intro st h
      rw [Bool.not_eq_true] at hrec
      rw [hrec] at ih
      simp only [allListingsOkB, hrec, Bool.not_false, Bool.true_or, Bool.true_and] at h
      rw [scanEntries]
      simp only [hrec, Bool.false_eq_true, if_false]
      exact ih st h
  | case4 nm e rest dirPath ih =>
      intro st h
      rw [scanEntries]
      cases hrec : opts.recursive with
      | true => exact ⟨e, by simp⟩
      | false =>
          rw [hrec] at ih h
          simp only [allListingsOkB, Bool.not_false, Bool.true_and] at h
          simp only [Bool.false_eq_true, if_false]
          exact ih st h
  | case5 name d rest dirPath ih =>
      intro st h
      simp only [allListingsOkB] at h
      rw [scanEntries_file_step]
      exact ih _ h

theorem filterMap_ext {α β : Type} (f g : α → Option β) (h : ∀ a, f a = g a) (l : List α) :
    l.filterMap f = l.filterMap g := by
  have hfg : f = g := funext h
  rw [hfg]

theorem recordOf_shift (rootPath : List String) (opts : ScanOptions) (dirPath : List String)
    (name : String) (t : List String × String × Except Err FileData) :
    recordOf rootPath opts dirPath (name :: t.1, t.2) =
      recordOf rootPath opts (dirPath ++ [name]) t := by
  rcases t with ⟨p, n, d⟩
  have hp : dirPath ++ name :: p = dirPath ++ [name] ++ p := by
    rw [List.append_assoc]
    rfl
  simp only [recordOf, hp]

theorem diagOf_shift (opts : ScanOptions) (dirPath : List String)
    (name : String) (t : List String × String × Except Err FileData) :
    diagOf opts dirPath (name :: t.1, t.2) = diagOf opts (dirPath ++ [name]) t := by
  rcases t with ⟨p, n, d⟩
  have hp : dirPath ++ name :: p = dirPath ++ [name] ++ p := by
    rw [List.append_assoc]
    rfl
  simp only [diagOf, hp]

theorem readOf_shift (opts : ScanOptions) (dirPath : List String)
    (name : String) (t : List String × String × Except Err FileData) :
    readOf opts dirPath (name :: t.1, t.2) = readOf opts (dirPath ++ [name]) t := by
  rcases t with ⟨p, n, d⟩
  have hp : dirPath ++ name :: p = dirPath ++ [name] ++ p := by
    rw [List.append_assoc]
    rfl
  simp only [readOf, hp]

theorem fileContribution_results (rootPath : List String) (opts : ScanOptions)
    (dirPath : List String) (name : String) (d : Except Err FileData) :
    (fileContribution rootPath opts dirPath name d).results =
      (recordOf rootPath opts dirPath ([], name, d)).toList := by
  simp only [fileContribution, recordOf, List.append_nil]
  by_cases hv : isValidImageFile name opts = true
  · simp only [hv, if_true]
    cases d with
    | error e0 => simp [getImageMetadata]
    | ok data =>
        simp only [getImageMetadata]
        split_ifs with hs <;> simp [ScanState.empty]
  · simp only [Bool.not_eq_true] at hv
    simp [hv, ScanState.empty]

theorem fileContribution_diagnostics (rootPath : List String) (opts : ScanOptions)
    (dirPath : List String) (name : String) (d : Except Err FileData) :
    (fileContribution rootPath opts dirPath name d).diagnostics =
      (diagOf opts dirPath ([], name, d)).toList := by
  simp only [fileContribution, diagOf, List.append_nil]
  by_cases hv : isValidImageFile name opts = true
  · simp only [hv, if_true]
    cases d with
    | error e0 => simp [getImageMetadata]
    | ok data =>
        simp only [getImageMetadata]
        split_ifs with hs <;> simp [ScanState.empty]
  · simp only [Bool.not_eq_true] at hv
    simp [hv, ScanState.empty]

theorem fileContribution_reads (rootPath : List String) (opts : ScanOptions)
    (dirPath : List String) (name : String) (d : Except Err FileData) :
    (fileContribution rootPath opts dirPath name d).reads =
      (readOf opts dirPath ([], name, d)).toList := by
  simp only [fileContribution, readOf, List.append_nil]
  by_cases hv : isValidImageFile name opts = true
  · simp only [hv, if_true]
    cases d with
    | error e0 => simp [getImageMetadata]
    | ok data =>
        simp only [getImageMetadata]
        split_ifs with hs <;> simp [ScanState.empty]
  · simp only [Bool.not_eq_true] at hv
    simp [hv, ScanState.empty]

/-- The records of a pure walk are exactly the accepted reachable files,
in traversal order. -/
theorem pureScan_results (rootPath : List String) (opts : ScanOptions) :
    ∀ (l : FsListing) (dirPath : List String),
      (pureScan rootPath opts l dirPath).results =
        (entryFiles opts.recursive l).filterMap (recordOf rootPath opts dirPath) := by
  intro l dirPath
  induction l, dirPath using pureScan.induct rootPath opts with
  | case1 dirPath => simp [pureScan, entryFiles, ScanState.empty]
  | case2 name sub rest dirPath hrec ih1 ih2 =>
      rw [hrec] at ih1 ih2
      rw [pureScan, entryFiles]
      simp only [hrec, if_true, ScanState.append]
      rw [List.filterMap_append, List.filterMap_map, ih1, ih2]
      congr 1
      exact (filterMap_ext _ _ (fun t => recordOf_shift rootPath opts dirPath name t) _).symm
  | case3 name sub rest dirPath hrec ih =>
      rw [Bool.not_eq_true] at hrec
      rw [hrec] at ih
      rw [pureScan, entryFiles]
      simp only [hrec, Bool.false_eq_true, if_false, List.nil_append]
      exact ih
  | case4 nm e rest dirPath ih =>
      rw [pureScan, entryFiles]
      exact ih
  | case5 name d rest dirPath ih =>
      rw [pureScan, entryFiles]
      simp only [ScanState.append, List.filterMap_cons]
      rw [ih]
      cases hfa : recordOf rootPath opts dirPath ([], name, d) with
      | none => simp [fileContribution_results, hfa]
      | some m => simp [fileContribution_results, hfa]

/-- The diagnostics of a pure walk are exactly the type-matching files
whose stat/read fails, in traversal order. -/
theorem pureScan_diagnostics (rootPath : List String) (opts : ScanOptions) :
    ∀ (l : FsListing) (dirPath : List String),
      (pureScan rootPath opts l dirPath).diagnostics =
        (entryFiles opts.recursive l).filterMap (diagOf opts dirPath) := by
  intro l dirPath
  induction l, dirPath using pureScan.induct rootPath opts with
  | case1 dirPath => simp [pureScan, entryFiles, ScanState.empty]
  | case2 name sub rest dirPath hrec ih1 ih2 =>
      rw [hrec] at ih1 ih2
      rw [pureScan, entryFiles]
      simp only [hrec, if_true, ScanState.append]
      rw [List.filterMap_append, List.filterMap_map, ih1, ih2]
      congr 1
      exact (filterMap_ext _ _ (fun t => diagOf_shift opts dirPath name t) _).symm
  | case3 name sub rest dirPath hrec ih =>
      rw [Bool.not_eq_true] at hrec
      rw [hrec] at ih
      rw [pureScan, entryFiles]
      simp only [hrec, Bool.false_eq_true, if_false, List.nil_append]
      exact ih
  | case4 nm e rest dirPath ih =>
      rw [pureScan, entryFiles]
      exact ih
  | case5 name d rest dirPath ih =>
      rw [pureScan, entryFiles]
      simp only [ScanState.append, List.filterMap_cons]
      rw [ih]
      cases hfa : diagOf opts dirPath ([], name, d) with
      | none => simp [fileContribution_diagnostics, hfa]
      | some x => simp [fileContribution_diagnostics, hfa]

/-- The read attempts of a pure walk are exactly the type-matching
reachable files, in traversal order. -/
theorem pureScan_reads (rootPath : List String) (opts : ScanOptions) :
    ∀ (l : FsListing) (dirPath : List String),
      (pureScan rootPath opts l dirPath).reads =
        (entryFiles opts.recursive l).filterMap (readOf opts dirPath) := by
  intro l dirPath
  induction l, dirPath using pureScan.induct rootPath opts with
  | case1 dirPath => simp [pureScan, entryFiles, ScanState.empty]
  | case2 name sub rest dirPath hrec ih1 ih2 =>
      rw [hrec] at ih1 ih2
      rw [pureScan, entryFiles]
      simp only [hrec, if_true, ScanState.append]
      rw [List.filterMap_append, List.filterMap_map, ih1, ih2]
      congr 1
      exact (filterMap_ext _ _ (fun t => readOf_shift opts dirPath name t) _).symm
  | case3 name sub rest dirPath hrec ih =>
      rw [Bool.not_eq_true] at hrec
      rw [hrec] at ih
      rw [pureScan, entryFiles]
      simp only [hrec, Bool.false_eq_true, if_false, List.nil_append]
      exact ih
  | case4 nm e rest dirPath ih =>
      rw [pureScan, entryFiles]
      exact ih
  | case5 name d rest dirPath ih =>
      rw [pureScan, entryFiles]
      simp only [ScanState.append, List.filterMap_cons]
      rw [ih]
      cases hfa : readOf opts dirPath ([], name, d) with
      | none => simp [fileContribution_reads, hfa]
      | some x => simp [fileContribution_reads, hfa]

theorem commonPrefixLen_append (a q : List String) : commonPrefixLen a (a ++ q) = a.length := by
  induction a with
  | nil => rfl
  | cons x xs ih => simp [commonPrefixLen, ih]

/-- Relativizing a path that extends the root strips exactly the root:
no `..` segments are synthesized. -/
theorem pathRelative_append (a q : List String) : pathRelative a (a ++ q) = q := by
  simp [pathRelative, commonPrefixLen_append, List.drop_left]

/-- A kept record's fields are determined by its source file: the `path`
is the directory path followed by the file key, the `absolutePath` is the
same prefixed with the root, and the file passed the type predicate. -/
theorem recordOf_fields (rootPath : List String) (opts : ScanOptions) (dirPath : List String)
    (t : List String × String × Except Err FileData) (m : ImageMetadata)
    (h : recordOf rootPath opts dirPath t = some m) :
    m.path = dirPath ++ fileKey t ∧
      m.absolutePath = rootPath ++ (dirPath ++ fileKey t) ∧
      isValidImageFile t.2.1 opts = true := by
  rcases t with ⟨p, n, d⟩
  by_cases hv : isValidImageFile n opts = true
  · cases d with
    | error e =>
        rw [recordOf] at h
        simp [hv, getImageMetadata] at h
    | ok data =>
        rw [recordOf] at h
        simp only [hv, if_true, getImageMetadata] at h
        split_ifs at h with hs
        · have hm := Option.some.inj h
          subst hm
          refine ⟨?_, ?_, hv⟩
          · show pathRelative rootPath (rootPath ++ (dirPath ++ p) ++ [n]) =
              dirPath ++ fileKey (p, n, Except.ok data)
            rw [List.append_assoc rootPath (dirPath ++ p) [n], pathRelative_append]
            show (dirPath ++ p) ++ [n] = dirPath ++ (p ++ [n])
            rw [List.append_assoc]
          · show rootPath ++ (dirPath ++ p) ++ [n] =
              rootPath ++ (dirPath ++ fileKey (p, n, Except.ok data))
            rw [List.append_assoc rootPath (dirPath ++ p) [n],
              List.append_assoc dirPath p [n]]
            rfl
  · rw [recordOf] at h
    simp [hv] at h

/-- Every reachable file's key starts with the name of a top-level entry
of the listing it came from. -/
theorem entryFiles_key_head (rec : Bool) :
    ∀ l : FsListing, ∀ t ∈ entryFiles rec l,
      ∃ hd tl, fileKey t = hd :: tl ∧ hd ∈ listingNames l := by
  intro l
  induction l using wellNamedB.induct with
  | case1 => simp [entryFiles]
  | case2 name sub rest ih1 ih2 =>
      intro t ht
      rw [entryFiles] at ht
      rcases List.mem_append.mp ht with h | h
      · cases hrec : rec with
        | false => rw [hrec] at h; simp at h
        | true =>
            rw [hrec] at h
            simp only [if_true] at h
            obtain ⟨u, hu, hut⟩ := List.mem_map.mp h
            refine ⟨name, fileKey u, ?_, ?_⟩
            · rw [← hut]
              show (name :: u.1) ++ [u.2.1] = name :: (u.1 ++ [u.2.1])
              rfl
            · simp [listingNames]
      · obtain ⟨hd, tl, hk, hm⟩ := ih2 t h
        exact ⟨hd, tl, hk, by simp [listingNames, hm]⟩
  | case3 name e rest ih =>
      intro t ht
      rw [entryFiles] at ht
      obtain ⟨hd, tl, hk, hm⟩ := ih t ht
      exact ⟨hd, tl, hk, by simp [listingNames, hm]⟩
  | case4 name d rest ih =>
      intro t ht
      rw [entryFiles] at ht
      rcases List.mem_cons.mp ht with h | h
      · subst h
        exact ⟨name, [], rfl, by simp [listingNames]⟩
      · obtain ⟨hd, tl, hk, hm⟩ := ih t h
        exact ⟨hd, tl, hk, by simp [listingNames, hm]⟩

theorem contains_false_not_mem (l : List String) (a : String)
    (h : l.contains a = false) : a ∉ l := by
  simpa using h

/-- In a tree whose listings have pairwise-distinct entry names, distinct
reachable files have distinct keys. -/
theorem entryFiles_keys_nodup (rec : Bool) :
    ∀ l : FsListing, wellFormedB l = true → ((entryFiles rec l).map fileKey).Nodup := by
  intro l
  induction l using wellNamedB.induct with
  | case1 => intro _; simp [entryFiles]
  | case2 name sub rest ih1 ih2 =>
      intro hwf
      simp only [wellFormedB, Bool.and_eq_true, Bool.not_eq_true'] at hwf
      obtain ⟨⟨hn, hsub⟩, hrest⟩ := hwf
      rw [entryFiles, List.map_append]
      rw [List.nodup_append]
      refine ⟨?_, ih2 hrest, ?_⟩
      · rcases Bool.eq_false_or_eq_true rec with hrec | hrec
        swap
        · rw [hrec]
          simp
        · rw [hrec] at ih1 ⊢
          simp only [if_true, List.map_map]
          have hkey : (fileKey ∘ fun t => (name :: t.1, t.2)) =
              (fun k => name :: k) ∘ fileKey := by
            funext u
            rfl
          rw [hkey, ← List.map_map]
          exact (ih1 hsub).map (fun a b hab => (List.cons.injEq _ _ _ _).mp hab |>.2)
      · intro x hx hy
        obtain ⟨v, hv, hvy⟩ := List.mem_map.mp hy
        obtain ⟨hd, tl, hk, hm⟩ := entryFiles_key_head rec rest v hv
        rcases Bool.eq_false_or_eq_true rec with hrec | hrec
        swap
        · rw [hrec] at hx
          simp at hx
        · rw [hrec] at hx
          simp only [if_true, List.map_map] at hx
          obtain ⟨u, hu, hux⟩ := List.mem_map.mp hx
          have hx1 : x = name :: fileKey u := by
            rw [← hux]
            rfl
          have h2 : hd :: tl = name :: fileKey u := (hk.symm.trans hvy).trans hx1
          have hdname : hd = name := ((List.cons.injEq _ _ _ _).mp h2).1
          exact contains_false_not_mem _ _ hn (hdname ▸ hm)
  | case3 name e rest ih =>
      intro hwf
      simp only [wellFormedB, Bool.and_eq_true, Bool.not_eq_true'] at hwf
      rw [entryFiles]
      exact ih hwf.2
  | case4 name d rest ih =>
      intro hwf
      simp only [wellFormedB, Bool.and_eq_true, Bool.not_eq_true'] at hwf
      rw [entryFiles, List.map_cons, List.nodup_cons]
      refine ⟨?_, ih hwf.2⟩
      intro hmem
      obtain ⟨v, hv, hvy⟩ := List.mem_map.mp hmem
      obtain ⟨hd, tl, hk, hm⟩ := entryFiles_key_head rec rest v hv
      rw [hk] at hvy
      have : hd = name := ((List.cons.injEq _ _ _ _).mp hvy).1
      exact contains_false_not_mem _ _ hwf.1 (this ▸ hm)

/-- In a tree with no entry named `..`, no reachable file key contains a
path-traversal segment. -/
theorem entryFiles_no_dotdot (rec : Bool) :
    ∀ l : FsListing, wellNamedB l = true → ∀ t ∈ entryFiles rec l, ".." ∉ fileKey t := by
  intro l
  induction l using wellNamedB.induct with
  | case1 => intro _; simp [entryFiles]
  | case2 name sub rest ih1 ih2 =>
      intro hwn t ht
      simp only [wellNamedB, Bool.and_eq_true, bne_iff_ne, ne_eq] at hwn
      obtain ⟨⟨hn, hsub⟩, hrest⟩ := hwn
      rw [entryFiles] at ht
      rcases List.mem_append.mp ht with h | h
      · rcases Bool.eq_false_or_eq_true rec with hrec | hrec
        swap
        · rw [hrec] at h
          simp at h
        · rw [hrec] at h ih1
          simp only [if_true] at h
          obtain ⟨u, hu, hut⟩ := List.mem_map.mp h
          rw [← hut]
          show ".." ∉ name :: fileKey u
          intro hcon
          rcases List.mem_cons.mp hcon with hc | hc
          · exact hn hc.symm
          · exact ih1 hsub u hu hc
      · exact ih2 hrest t h
  | case3 name e rest ih =>
      intro hwn t ht
      simp only [wellNamedB, Bool.and_eq_true, bne_iff_ne, ne_eq] at hwn
      rw [entryFiles] at ht
      exact ih hwn.2 t ht
  | case4 name d rest ih =>
      intro hwn t ht
      simp only [wellNamedB, Bool.and_eq_true, bne_iff_ne, ne_eq] at hwn
      rw [entryFiles] at ht
      rcases List.mem_cons.mp ht with h | h
      · subst h
        show ".." ∉ [name]
        simp only [List.mem_singleton]
        intro hc
        exact hwn.1 hc.symm
      · exact ih hwn.2 t h

/-- A shallow walk reaches exactly the depth-0 files of a deep walk. -/
theorem entryFiles_shallow :
    ∀ l : FsListing,
      entryFiles false l = (entryFiles true l).filter (fun t => t.1.isEmpty) := by
  intro l
  induction l using wellNamedB.induct with
  | case1 => simp [entryFiles]
  | case2 name sub rest ih1 ih2 =>
      rw [entryFiles, entryFiles]
      simp only [if_true, Bool.false_eq_true, if_false, List.nil_append]
      rw [List.filter_append, ih2]
      have hleft : ((entryFiles true sub).map (fun t => (name :: t.1, t.2))).filter
          (fun t => t.1.isEmpty) = [] := by
        rw [List.filter_eq_nil_iff]
        intro t ht
        obtain ⟨u, hu, hut⟩ := List.mem_map.mp ht
        rw [← hut]
        simp
      rw [hleft, List.nil_append]
  | case3 name e rest ih =>
      rw [entryFiles, entryFiles]
      exact ih
  | case4 name d rest ih =>
      rw [entryFiles, entryFiles, List.filter_cons]
      simp only [List.isEmpty_nil, if_true]
      rw [ih]

/-- Mapping a projection over a `filterMap` is a sublist of mapping a
compatible function over the source. -/
theorem map_filterMap_sublist {α β γ : Type} (f : α → Option β) (g : β → γ) (h : α → γ)
    (hfg : ∀ a b, f a = some b → g b = h a) :
    ∀ l : List α, ((l.filterMap f).map g).Sublist (l.map h) := by
  intro l
  induction l with
  | nil => simp
  | cons a l ih =>
      rw [List.filterMap_cons, List.map_cons]
      cases hfa : f a with
      | none => exact ih.cons (h a)
      | some b =>
          rw [List.map_cons, hfg a b hfa]
          exact ih.cons₂ (h a)

/-- Filtering a list with pairwise-distinct keys for one present key
returns exactly that element. -/
theorem filter_key_singleton {β : Type} (key : β → List String) (tgt : List String) :
    ∀ l : List β, (l.map key).Nodup → ∀ m ∈ l, key m = tgt →
      l.filter (fun r => decide (key r = tgt)) = [m] := by
  intro l
  induction l with
  | nil => intro _ m hm; simp at hm
  | cons a l ih =>
      intro hnd m hm htgt
      rw [List.map_cons, List.nodup_cons] at hnd
      rcases List.mem_cons.mp hm with h | h
      · subst h
        have hnil : l.filter (fun r => decide (key r = tgt)) = [] := by
          rw [List.filter_eq_nil_iff]
          intro r hr
          simp only [decide_eq_true_eq]
          intro hc
          apply hnd.1
          rw [htgt, ← hc]
          exact List.mem_map_of_mem key hr
        simp [List.filter_cons, htgt, hnil]
      · rw [List.filter_cons]
        have hka : ¬(key a = tgt) := by
          intro hc
          apply hnd.1
          rw [hc, ← htgt]
          exact List.mem_map_of_mem key h
        simp only [hka, decide_eq_false hka, Bool.false_eq_true, if_false]
        exact ih hnd.2 m h htgt

/-- The size predicate accepts any record whose size respects the bound
whenever one is set. -/
theorem isValidSize_of_le (m : ImageMetadata) (mx : Option Nat)
    (h : ∀ k, mx = some k → m.size ≤ k) : isValidSize m mx = true := by
  cases mx with
  | none => rfl
  | some k =>
      cases k with
      | zero => rfl
      | succ j =>
          simp [isValidSize, h (j + 1) rfl]

/-- Unfolding `scan` on a listable root. -/
theorem scan_dirOk (rootPath : List String) (entries : FsListing) (o : PartialScanOptions) :
    scan rootPath (.dirOk entries) o =
      scanEntries rootPath (mergeOptions o) entries [] ScanState.empty := rfl

/-- A scan whose listings all succeed returns the pure trace of the
tree. -/
theorem scan_ok (rootPath : List String) (entries : FsListing) (o : PartialScanOptions)
    (hok : allListingsOkB (mergeOptions o).recursive entries = true) :
    scan rootPath (.dirOk entries) o =
      .ok (pureScan rootPath (mergeOptions o) entries []) := by
  rw [scan_dirOk, scanEntries_ok rootPath (mergeOptions o) entries [] ScanState.empty hok,
    ScanState.empty_append]

/-- A surfaced diagnostic names the failing file's path, and that file
passed the type predicate. -/
theorem diagOf_fields (opts : ScanOptions) (dirPath : List String)
    (t : List String × String × Except Err FileData) (x : List String × Err)
    (h : diagOf opts dirPath t = some x) :
    x.1 = dirPath ++ t.1 ++ [t.2.1] ∧ isValidImageFile t.2.1 opts = true := by
  rcases t with ⟨p, n, d⟩
  by_cases hv : isValidImageFile n opts = true
  · cases d with
    | error e =>
        rw [diagOf] at h
        simp only [hv, if_true] at h
        have := Option.some.inj h
        subst this
        exact ⟨rfl, hv⟩
    | ok data =>
        rw [diagOf] at h
        simp [hv] at h
  · rw [diagOf] at h
    simp [hv] at h

/-- A recorded read attempt names the touched file's path, and that file
passed the type predicate. -/
theorem readOf_fields (opts : ScanOptions) (dirPath : List String)
    (t : List String × String × Except Err FileData) (q : List String)
    (h : readOf opts dirPath t = some q) :
    q = dirPath ++ t.1 ++ [t.2.1] ∧ isValidImageFile t.2.1 opts = true := by
  rcases t with ⟨p, n, d⟩
  by_cases hv : isValidImageFile n opts = true
  · rw [readOf] at h
    simp only [hv, if_true] at h
    have := Option.some.inj h
    subst this
    exact ⟨rfl, hv⟩
  · rw [readOf] at h
    simp [hv] at h

/-- Two paths ending in a single appended component agree on that last
component when equal. -/
theorem append_singleton_inj {α : Type} {a b : List α} {x y : α}
    (h : a ++ [x] = b ++ [y]) : x = y := by
  have hlen : a.length = b.length := by
    have hl := congrArg List.length h
    simp only [List.length_append, List.length_singleton] at hl
    omega
  have hx := (List.append_inj h hlen).2
  simpa using hx

/-- Filtering the sources commutes with filtering the images under a
`filterMap` whose predicate transports. -/
theorem filterMap_filter_comm {α β : Type} (f : α → Option β) (p : α → Bool) (q : β → Bool)
    (hpq : ∀ a b, f a = some b → q b = p a) :
    ∀ l : List α, (l.filter p).filterMap f = (l.filterMap f).filter q := by
  intro l
  induction l with
  | nil => rfl
  | cons a l ih =>
      rw [List.filter_cons, List.filterMap_cons]
      cases hfa : f a with
      | none =>
          cases hp : p a with
          | false => simpa using ih
          | true =>
              simp only [if_true, List.filterMap_cons, hfa]
              exact ih
      | some b =>
          have hq := hpq a b hfa
          cases hp : p a with
          | false =>
              rw [hp] at hq
              simp only [Bool.false_eq_true, if_false, List.filter_cons, hq]
              exact ih
          | true =>
              rw [hp] at hq
              simp only [if_true, List.filterMap_cons, hfa, List.filter_cons, hq]
              rw [ih]

/-- Folding chunk updates keeps the pending buffer below one block. -/
theorem foldl_update_buffer_lt (cs : List (List Nat)) (s : Sha256.HashState)
    (hs : s.buffer.length < 64) : (cs.foldl Sha256.update s).buffer.length < 64 := by
  induction cs generalizing s with
  | nil => simpa
  | cons c cs ih => exact ih (Sha256.update s c) (Sha256.update_buffer_lt c s hs)

/-- A type-matching readable file within the size bound is kept, with
the assembled record. -/
theorem recordOf_some_of_le (rootPath : List String) (opts : ScanOptions)
    (dirPath p : List String) (name : String) (data : FileData)
    (htype : isValidImageFile name opts = true)
    (hle : ∀ k, opts.maxSize = some k → data.content.length ≤ k) :
    recordOf rootPath opts dirPath (p, name, Except.ok data) =
      some { path := pathRelative rootPath (rootPath ++ (dirPath ++ p) ++ [name])
             absolutePath := rootPath ++ (dirPath ++ p) ++ [name]
             size := data.content.length
             hash := calculateFileHash data.content
             created := data.created
             modified := data.modified } := by
  rw [recordOf]
  simp only [htype, if_true, getImageMetadata]
  rw [isValidSize_of_le _ _ (fun k hk => hle k hk)]
  simp

/-- A type-matching readable file over a positive size bound is
discarded. -/
theorem recordOf_none_of_size (rootPath : List String) (opts : ScanOptions)
    (dirPath p : List String) (name : String) (data : FileData) (mx : Nat)
    (htype : isValidImageFile name opts = true)
    (hmx : opts.maxSize = some mx) (hpos : 0 < mx) (hgt : mx < data.content.length) :
    recordOf rootPath opts dirPath (p, name, Except.ok data) = none := by
  rw [recordOf]
  simp only [htype, if_true, getImageMetadata]
  have hsz : isValidSize
      { path := pathRelative rootPath (rootPath ++ (dirPath ++ p) ++ [name])
        absolutePath := rootPath ++ (dirPath ++ p) ++ [name]
        size := data.content.length
        hash := calculateFileHash data.content
        created := data.created
        modified := data.modified } opts.maxSize = false := by
    rw [hmx]
    simp only [isValidSize]
    have h0 : ¬ mx = 0 := by omega
    simp only [h0, if_false]
    simp only [decide_eq_false_iff_not]
    omega
  rw [hsz]
  simp

/-! ## Claim theorems -/

/-- C4: `scan` fails with an error (not a partial or empty result)
whenever the root itself cannot be listed (does not exist, permission
denied, not a directory), and scanning an existing empty directory
returns an empty output sequence with no error. -/
theorem scan_root_error_empty_ok :
    ∀ (rootPath : List String) (o : PartialScanOptions),
      (∀ e, scan rootPath (.dirErr e) o = .error e) ∧
      (∀ d, scan rootPath (.file d) o = .error Err.enotdir) ∧
      scan rootPath (.dirOk .nil) o = .ok ScanState.empty := by
  intro rootPath o
  exact ⟨fun e => rfl, fun d => rfl, rfl⟩

/-- C9: during a recursive scan whose root was listed successfully, a
failing subdirectory listing aborts the entire scan with an error — no
records are returned, unlike the isolated per-file extraction
failures. -/
theorem subdir_listing_failure_fatal (rootPath : List String) (entries : FsListing)
    (o : PartialScanOptions) (hrec : (mergeOptions o).recursive = true)
    (hbad : allListingsOkB true entries = false) :
    ∃ e, scan rootPath (.dirOk entries) o = .error e := by
  rw [scan_dirOk]
  apply scanEntries_error
  rw [hrec]
  exact hbad

/-- Witness for C9 at a concrete tree with one unreadable
subdirectory. -/
theorem subdir_listing_failure_fatal_witness :
    (mergeOptions {}).recursive = true ∧
    allListingsOkB true (.cons "sub" (.dirErr .eacces) .nil) = false ∧
    ∃ e, scan [] (.dirOk (.cons "sub" (.dirErr .eacces) .nil)) {} = .error e :=
  ⟨rfl, by decide,
    subdir_listing_failure_fatal [] (.cons "sub" (.dirErr .eacces) .nil) {} rfl (by decide)⟩

/-- C10: digest computation is streaming and chunked: the content is
processed in chunks of at most 64 KiB, no byte is dropped or duplicated,
and the state carried between chunks retains fewer than 64 buffered
bytes at every step — so the retained data is bounded by the chunk size
regardless of file size and the whole file is never required at once. -/
theorem hash_streaming_chunked (content : List Nat) :
    (∀ c ∈ chunksOf 65536 content, c.length ≤ 65536) ∧
    (chunksOf 65536 content).flatten = content ∧
    (∀ n : Nat,
      (((chunksOf 65536 content).take n).foldl Sha256.update Sha256.initState).buffer.length
        < 64) ∧
    calculateFileHash content =
      Sha256.digestHex ((chunksOf 65536 content).foldl Sha256.update Sha256.initState) := by
  refine ⟨chunksOf_length_le 65536 content, chunksOf_flatten 65536 (by omega) content,
    ?_, rfl⟩
  intro n
  exact foldl_update_buffer_lt _ _ (by simp [Sha256.initState])

/-- Witness for C10 at a concrete content. -/
theorem hash_streaming_chunked_witness :
    (∀ c ∈ chunksOf 65536 [7, 7, 7], c.length ≤ 65536) ∧
    (chunksOf 65536 [7, 7, 7]).flatten = [7, 7, 7] ∧
    (∀ n : Nat,
      (((chunksOf 65536 [7, 7, 7]).take n).foldl Sha256.update Sha256.initState).buffer.length
        < 64) ∧
    calculateFileHash [7, 7, 7] =
      Sha256.digestHex ((chunksOf 65536 [7, 7, 7]).foldl Sha256.update Sha256.initState) :=
  hash_streaming_chunked [7, 7, 7]

/-- C6 counterexample: an explicitly empty `fileTypes` array does not
fall back to the default extension set — it accepts nothing, while the
omitted field does fall back and accepts `a.jpg`. -/
theorem empty_fileTypes_not_default_cex :
    scan [] (.dirOk (.cons "a.jpg" (.file (.ok ⟨[1], 0, 0⟩)) .nil)) { fileTypes := some [] } =
      .ok ScanState.empty ∧
    (scan [] (.dirOk (.cons "a.jpg" (.file (.ok ⟨[1], 0, 0⟩)) .nil)) {}).map
        (fun st => st.results.map (fun r => r.path)) = .ok [["a.jpg"]] := by
  exact ⟨by decide, by decide⟩

/-- C6 amended: every omitted option falls back to its default (the
built-in raster-image extension set, recursive = true, unbounded size),
and an absent bound accepts every record; an explicitly empty
`fileTypes` list overrides the default and accepts no file name. -/
theorem defaults_on_omitted_fields :
    (∀ rb zb mx, (mergeOptions ⟨rb, zb, none, mx⟩).fileTypes =
      [".jpg", ".jpeg", ".png", ".gif", ".webp", ".bmp", ".tiff"]) ∧
    (∀ zb ft mx, (mergeOptions ⟨none, zb, ft, mx⟩).recursive = true) ∧
    (∀ rb zb ft, (mergeOptions ⟨rb, zb, ft, none⟩).maxSize = none) ∧
    (∀ m : ImageMetadata, isValidSize m none = true) ∧
    (∀ rb zb mx name, isValidImageFile name (mergeOptions ⟨rb, zb, some [], mx⟩) = false) := by
  exact ⟨fun rb zb mx => rfl, fun zb ft mx => rfl, fun rb zb ft => rfl, fun m => rfl,
    fun rb zb mx name => rfl⟩

/-- C2 counterexample: with `maxSize = 0` the size bound is not
enforced — `!maxSize` is true for the number 0, so a three-byte `a.jpg`
is kept even though its size exceeds the bound. -/
theorem maxSize_zero_unbounded_cex :
    (scan [] (.dirOk (.cons "a.jpg" (.file (.ok ⟨[1, 2, 3], 0, 0⟩)) .nil))
        { maxSize := some 0 }).map
        (fun st => st.results.map (fun r => (r.path, r.size))) =
      .ok [(["a.jpg"], 3)] := by
  decide

/-- C3: per-file extraction failures are isolated: when every listing
succeeds, the scan succeeds, returns exactly the records of the readable
accepted files, and surfaces one diagnostic per type-matching file whose
extraction failed — in particular one broken file plus `nRecords`
accepted readable files yield `nRecords` records and one diagnostic. -/
theorem per_file_failure_isolated (rootPath : List String) (entries : FsListing)
    (o : PartialScanOptions) (nRecords : Nat)
    (hok : allListingsOkB (mergeOptions o).recursive entries = true)
    (hN : ((entryFiles (mergeOptions o).recursive entries).filterMap
      (recordOf rootPath (mergeOptions o) [])).length = nRecords)
    (hB : ((entryFiles (mergeOptions o).recursive entries).filterMap
      (diagOf (mergeOptions o) [])).length = 1) :
    ∃ st, scan rootPath (.dirOk entries) o = .ok st ∧
      st.results.length = nRecords ∧ st.diagnostics.length = 1 := by
  refine ⟨_, scan_ok rootPath entries o hok, ?_, ?_⟩
  · rw [pureScan_results]
    exact hN
  · rw [pureScan_diagnostics]
    exact hB

/-- C8: every record's `path` is relative to the scan root (the absolute
path is the root followed by it) and contains no `..` segment: the
walker only descends into entries obtained by listing the root and its
descendants. -/
theorem paths_relative_no_traversal (rootPath : List String) (entries : FsListing)
    (o : PartialScanOptions)
    (hok : allListingsOkB (mergeOptions o).recursive entries = true)
    (hnm : wellNamedB entries = true) :
    ∃ st, scan rootPath (.dirOk entries) o = .ok st ∧
      ∀ r ∈ st.results, r.absolutePath = rootPath ++ r.path ∧ ".." ∉ r.path := by
  refine ⟨_, scan_ok rootPath entries o hok, ?_⟩
  intro r hr
  rw [pureScan_results] at hr
  obtain ⟨t, ht, hrt⟩ := List.mem_filterMap.mp hr
  obtain ⟨hpath, habs, _⟩ := recordOf_fields rootPath (mergeOptions o) [] t r hrt
  refine ⟨by rw [habs, hpath], ?_⟩
  rw [hpath]
  have hnot := entryFiles_no_dotdot (mergeOptions o).recursive entries hnm t ht
  simpa using hnot

/-- Witness for C8 on a concrete two-level tree. -/
theorem paths_relative_no_traversal_witness :
    ∃ st,
      scan ["base"]
        (.dirOk (.cons "d" (.dirOk (.cons "a.jpg" (.file (.ok ⟨[1], 0, 0⟩)) .nil)) .nil))
        {} = .ok st ∧
      ∀ r ∈ st.results, r.absolutePath = ["base"] ++ r.path ∧ ".." ∉ r.path :=
  paths_relative_no_traversal ["base"]
    (.cons "d" (.dirOk (.cons "a.jpg" (.file (.ok ⟨[1], 0, 0⟩)) .nil)) .nil) {}
    (by decide) (by decide)

/-- C5: a regular file whose lower-cased extension is not in
`options.fileTypes` is rejected silently: the scan succeeds, no record
carries its path, no stat/read is attempted on it, and no diagnostic is
raised for it. -/
theorem type_reject_silent_no_read (rootPath : List String) (entries : FsListing)
    (o : PartialScanOptions) (p : List String) (name : String) (d : Except Err FileData)
    (hok : allListingsOkB (mergeOptions o).recursive entries = true)
    (_hmem : (p, name, d) ∈ entryFiles (mergeOptions o).recursive entries)
    (htype : isValidImageFile name (mergeOptions o) = false) :
    ∃ st, scan rootPath (.dirOk entries) o = .ok st ∧
      (∀ r ∈ st.results, r.path ≠ p ++ [name]) ∧
      (∀ q ∈ st.reads, q ≠ p ++ [name]) ∧
      (∀ dg ∈ st.diagnostics, dg.1 ≠ p ++ [name]) := by
  refine ⟨_, scan_ok rootPath entries o hok, ?_, ?_, ?_⟩
  · intro r hr hcon
    rw [pureScan_results] at hr
    obtain ⟨t, ht, hrt⟩ := List.mem_filterMap.mp hr
    obtain ⟨hpath, _, hvalid⟩ := recordOf_fields rootPath (mergeOptions o) [] t r hrt
    rw [hpath] at hcon
    have hlast : t.2.1 = name := append_singleton_inj (by simpa [fileKey] using hcon)
    rw [hlast, htype] at hvalid
    exact Bool.false_ne_true hvalid
  · intro q hq hcon
    rw [pureScan_reads] at hq
    obtain ⟨t, ht, hqt⟩ := List.mem_filterMap.mp hq
    obtain ⟨hqeq, hvalid⟩ := readOf_fields (mergeOptions o) [] t q hqt
    rw [hqeq] at hcon
    have hlast : t.2.1 = name := append_singleton_inj (by simpa using hcon)
    rw [hlast, htype] at hvalid
    exact Bool.false_ne_true hvalid
  · intro dg hdg hcon
    rw [pureScan_diagnostics] at hdg
    obtain ⟨t, ht, hdt⟩ := List.mem_filterMap.mp hdg
    obtain ⟨hdeq, hvalid⟩ := diagOf_fields (mergeOptions o) [] t dg hdt
    rw [hdeq] at hcon
    have hlast : t.2.1 = name := append_singleton_inj (by simpa using hcon)
    rw [hlast, htype] at hvalid
    exact Bool.false_ne_true hvalid

/-- Witness for C5: `c.txt` next to `a.jpg` is never recorded, read or
reported. -/
theorem type_reject_silent_no_read_witness :
    ∃ st,
      scan []
        (.dirOk (.cons "c.txt" (.file (.ok ⟨[1], 0, 0⟩))
          (.cons "a.jpg" (.file (.ok ⟨[2], 0, 0⟩)) .nil))) {} = .ok st ∧
      (∀ r ∈ st.results, r.path ≠ [] ++ ["c.txt"]) ∧
      (∀ q ∈ st.reads, q ≠ [] ++ ["c.txt"]) ∧
      (∀ dg ∈ st.diagnostics, dg.1 ≠ [] ++ ["c.txt"]) :=
  type_reject_silent_no_read []
    (.cons "c.txt" (.file (.ok ⟨[1], 0, 0⟩))
      (.cons "a.jpg" (.file (.ok ⟨[2], 0, 0⟩)) .nil)) {} [] "c.txt"
    (.ok ⟨[1], 0, 0⟩) (by decide) (by decide) (by decide)

/-- Witness for C3: one unreadable `bad.jpg` next to two readable
matching files yields two records, one diagnostic, and success. -/
theorem per_file_failure_isolated_witness :
    ∃ st,
      scan []
        (.dirOk (.cons "bad.jpg" (.file (.error .eacces))
          (.cons "a.jpg" (.file (.ok ⟨[1], 0, 0⟩))
            (.cons "b.png" (.file (.ok ⟨[2, 2], 0, 0⟩)) .nil)))) {} = .ok st ∧
      st.results.length = 2 ∧ st.diagnostics.length = 1 :=
  per_file_failure_isolated []
    (.cons "bad.jpg" (.file (.error .eacces))
      (.cons "a.jpg" (.file (.ok ⟨[1], 0, 0⟩))
        (.cons "b.png" (.file (.ok ⟨[2, 2], 0, 0⟩)) .nil))) {} 2
    (by decide) (by decide) (by decide)

/-- C7: a shallow scan returns exactly the depth-0 records of a
successful recursive scan of the same root with the same options: the
records whose root-relative path has a single component, in the same
order. -/
theorem shallow_eq_depth0_filter (rootPath : List String) (entries : FsListing)
    (o : PartialScanOptions) (st : ScanState)
    (h : scan rootPath (.dirOk entries) { o with recursive := some true } = .ok st) :
    ∃ st2, scan rootPath (.dirOk entries) { o with recursive := some false } = .ok st2 ∧
      st2.results = st.results.filter (fun r => decide (r.path.length = 1)) := by
  have hrecT : (mergeOptions { o with recursive := some true }).recursive = true := rfl
  have hok : allListingsOkB true entries = true := by
    cases hval : allListingsOkB true entries with
    | true => rfl
    | false =>
        obtain ⟨e, he⟩ := scanEntries_error rootPath
          (mergeOptions { o with recursive := some true }) entries [] ScanState.empty
          (by rw [hrecT]; exact hval)
        rw [scan_dirOk, he] at h
        exact Except.noConfusion h
  have hstT : st = pureScan rootPath (mergeOptions { o with recursive := some true })
      entries [] := by
    have hso := scan_ok rootPath entries { o with recursive := some true }
      (by rw [hrecT]; exact hok)
    rw [hso] at h
    exact (Except.ok.inj h).symm
  have hrecF : (mergeOptions { o with recursive := some false }).recursive = false := rfl
  refine ⟨_, scan_ok rootPath entries { o with recursive := some false }
    (by rw [hrecF]; exact allListingsOk_shallow entries), ?_⟩
  rw [hstT, pureScan_results, pureScan_results, hrecF, hrecT, entryFiles_shallow]
  have hsame : recordOf rootPath (mergeOptions { o with recursive := some false }) [] =
      recordOf rootPath (mergeOptions { o with recursive := some true }) [] := rfl
  rw [hsame]
  apply filterMap_filter_comm
  intro t m hm
  obtain ⟨hpath, _, _⟩ := recordOf_fields rootPath _ [] t m hm
  rw [hpath]
  rcases t with ⟨tp, tn, td⟩
  cases tp with
  | nil => simp [fileKey]
  | cons a as =>
      have hne : ¬ (([] ++ fileKey (a :: as, tn, td)).length = 1) := by
        simp [fileKey]
      simp only [decide_eq_false hne]
      simp

/-- Witness for C7: a recursive scan of a tree with one depth-0 and one
depth-1 image filters down to the depth-0 record. -/
theorem shallow_eq_depth0_filter_witness :
    ∃ st2,
      scan [] (.dirOk (.cons "a.jpg" (.file (.ok ⟨[1], 0, 0⟩))
          (.cons "d" (.dirOk (.cons "b.jpg" (.file (.ok ⟨[2], 0, 0⟩)) .nil)) .nil)))
        { recursive := some false } = .ok st2 ∧
      st2.results =
        (pureScan [] (mergeOptions { recursive := some true })
          (.cons "a.jpg" (.file (.ok ⟨[1], 0, 0⟩))
            (.cons "d" (.dirOk (.cons "b.jpg" (.file (.ok ⟨[2], 0, 0⟩)) .nil)) .nil))
          []).results.filter (fun r => decide (r.path.length = 1)) := by
  exact shallow_eq_depth0_filter []
    (.cons "a.jpg" (.file (.ok ⟨[1], 0, 0⟩))
      (.cons "d" (.dirOk (.cons "b.jpg" (.file (.ok ⟨[2], 0, 0⟩)) .nil)) .nil))
    {} _ (scan_ok _ _ _ (by decide))

/-- C2 amended: the size bound is enforced only when `maxSize` is a
positive integer (the source's `!maxSize` guard treats 0 as unset, so a
bound of 0 accepts every record): under a positive bound, a
type-matching readable file strictly over the bound leaves no record at
its path and raises no error, while one within the bound is kept. -/
theorem size_filter_positive_bound (rootPath : List String) (entries : FsListing)
    (o : PartialScanOptions) (p : List String) (name : String) (data : FileData) (mx : Nat)
    (hok : allListingsOkB (mergeOptions o).recursive entries = true)
    (hwf : wellFormedB entries = true)
    (hmem : (p, name, Except.ok data) ∈ entryFiles (mergeOptions o).recursive entries)
    (htype : isValidImageFile name (mergeOptions o) = true)
    (hmx : (mergeOptions o).maxSize = some mx) (hpos : 0 < mx) :
    (∀ m : ImageMetadata, isValidSize m (some 0) = true) ∧
    ∃ st, scan rootPath (.dirOk entries) o = .ok st ∧
      (mx < data.content.length →
        st.results.filter (fun r => decide (r.path = p ++ [name])) = []) ∧
      (data.content.length ≤ mx →
        ∃ m, getImageMetadata rootPath p name (.ok data) = .ok m ∧ m ∈ st.results) := by
  refine ⟨fun m => rfl, _, scan_ok rootPath entries o hok, ?_, ?_⟩
  · intro hgt
    rw [pureScan_results, List.filter_eq_nil_iff]
    intro r hr
    simp only [decide_eq_true_eq]
    intro hcon
    obtain ⟨t, ht, hrt⟩ := List.mem_filterMap.mp hr
    obtain ⟨hpath, _, _⟩ := recordOf_fields rootPath (mergeOptions o) [] t r hrt
    have hkey : fileKey t = fileKey (p, name, Except.ok data) := by
      rw [hpath] at hcon
      simpa [fileKey] using hcon
    have hnd := entryFiles_keys_nodup (mergeOptions o).recursive entries hwf
    have hteq : t = (p, name, Except.ok data) :=
      List.inj_on_of_nodup_map hnd ht hmem hkey
    rw [hteq, recordOf_none_of_size rootPath (mergeOptions o) [] p name data mx
      htype hmx hpos hgt] at hrt
    exact Option.noConfusion hrt
  · intro hle
    have hrec := recordOf_some_of_le rootPath (mergeOptions o) [] p name data htype
      (fun k hk => by
        rw [hmx] at hk
        rw [← Option.some.inj hk]
        exact hle)
    refine ⟨_, rfl, ?_⟩
    rw [pureScan_results]
    exact List.mem_filterMap.mpr ⟨(p, name, Except.ok data), hmem, hrec⟩

/-- Witness for the amended C2: `maxSize = 2` drops the three-byte
`big.jpg` and keeps the one-byte `ok.jpg`. -/
theorem size_filter_positive_bound_witness :
    ((∀ m : ImageMetadata, isValidSize m (some 0) = true) ∧
      ∃ st,
        scan []
          (.dirOk (.cons "big.jpg" (.file (.ok ⟨[1, 2, 3], 0, 0⟩)) .nil))
          { maxSize := some 2 } = .ok st ∧
        (2 < 3 →
          st.results.filter (fun r => decide (r.path = [] ++ ["big.jpg"])) = []) ∧
        (3 ≤ 2 →
          ∃ m, getImageMetadata [] [] "big.jpg" (.ok ⟨[1, 2, 3], 0, 0⟩) = .ok m ∧
            m ∈ st.results)) ∧
    ((∀ m : ImageMetadata, isValidSize m (some 0) = true) ∧
      ∃ st,
        scan []
          (.dirOk (.cons "ok.jpg" (.file (.ok ⟨[9], 0, 0⟩)) .nil))
          { maxSize := some 2 } = .ok st ∧
        (2 < 1 →
          st.results.filter (fun r => decide (r.path = [] ++ ["ok.jpg"])) = []) ∧
        (1 ≤ 2 →
          ∃ m, getImageMetadata [] [] "ok.jpg" (.ok ⟨[9], 0, 0⟩) = .ok m ∧
            m ∈ st.results)) :=
  ⟨size_filter_positive_bound [] (.cons "big.jpg" (.file (.ok ⟨[1, 2, 3], 0, 0⟩)) .nil)
      { maxSize := some 2 } [] "big.jpg" ⟨[1, 2, 3], 0, 0⟩ 2
      (by decide) (by decide) (by decide) (by decide) rfl (by decide),
    size_filter_positive_bound [] (.cons "ok.jpg" (.file (.ok ⟨[9], 0, 0⟩)) .nil)
      { maxSize := some 2 } [] "ok.jpg" ⟨[9], 0, 0⟩ 2
      (by decide) (by decide) (by decide) (by decide) rfl (by decide)⟩

/-- C1: every file in the scanned tree whose lower-cased extension is in
`options.fileTypes` and whose size respects `maxSize` (when set) yields
exactly one record in the output at its root-relative path, and that
record's `hash` is the lower-case hexadecimal SHA-256 digest of the
file's exact byte content. -/
theorem scan_unique_record_with_digest (rootPath : List String) (entries : FsListing)
    (o : PartialScanOptions) (p : List String) (name : String) (data : FileData)
    (hok : allListingsOkB (mergeOptions o).recursive entries = true)
    (hwf : wellFormedB entries = true)
    (hmem : (p, name, Except.ok data) ∈ entryFiles (mergeOptions o).recursive entries)
    (htype : isValidImageFile name (mergeOptions o) = true)
    (hsize : ∀ k, (mergeOptions o).maxSize = some k → data.content.length ≤ k) :
    ∃ st m, scan rootPath (.dirOk entries) o = .ok st ∧
      getImageMetadata rootPath p name (.ok data) = .ok m ∧
      st.results.filter (fun r => decide (r.path = p ++ [name])) = [m] ∧
      m.hash = sha256hex data.content := by
  have hrec := recordOf_some_of_le rootPath (mergeOptions o) [] p name data htype hsize
  refine ⟨_, _, scan_ok rootPath entries o hok, rfl, ?_, ?_⟩
  · rw [pureScan_results]
    apply filter_key_singleton (fun r : ImageMetadata => r.path) (p ++ [name])
    · have hnd := entryFiles_keys_nodup (mergeOptions o).recursive entries hwf
      have hsub := map_filterMap_sublist (recordOf rootPath (mergeOptions o) [])
        (fun r : ImageMetadata => r.path) fileKey
        (fun t m hm => by
          obtain ⟨hpath, _, _⟩ := recordOf_fields rootPath (mergeOptions o) [] t m hm
          simpa using hpath)
        (entryFiles (mergeOptions o).recursive entries)
      exact List.Nodup.sublist hsub hnd
    · exact List.mem_filterMap.mpr ⟨(p, name, Except.ok data), hmem, hrec⟩
    · show pathRelative rootPath (rootPath ++ p ++ [name]) = p ++ [name]
      rw [List.append_assoc rootPath p [name], pathRelative_append]
  · exact calculateFileHash_eq_sha256hex data.content

/-- Witness for C1: a one-file tree where the accepted `a.jpg` with
content "abc" appears once with the SHA-256 digest of "abc". -/
theorem scan_unique_record_with_digest_witness :
    ∃ st m,
      scan ["r"] (.dirOk (.cons "a.jpg" (.file (.ok ⟨[97, 98, 99], 0, 0⟩)) .nil)) {} =
        .ok st ∧
      getImageMetadata ["r"] [] "a.jpg" (.ok ⟨[97, 98, 99], 0, 0⟩) = .ok m ∧
      st.results.filter (fun r => decide (r.path = [] ++ ["a.jpg"])) = [m] ∧
      m.hash = sha256hex [97, 98, 99] :=
  scan_unique_record_with_digest ["r"]
    (.cons "a.jpg" (.file (.ok ⟨[97, 98, 99], 0, 0⟩)) .nil) {} [] "a.jpg"
    ⟨[97, 98, 99], 0, 0⟩ (by decide) (by decide) (by decide) (by decide)
    (fun k hk => Option.noConfusion hk)

end FileScanner

end Crawler
